import Mathlib

/-!
Verification development for the monitoring-dashboard repository
(src/streamlit_app.py), a pandas/streamlit app that loads an Excel table of
error events, cleans it, filters it by date range and URL keyword, buckets
events into calendar periods via `df.groupby(pd.Grouper(key='timestamp',
freq=...)).size()` (overall) or `df.groupby([dim, pd.Grouper(...)]).size()`
(grouped), keeps the top-N groups, and shows period-over-period growth.

The pandas operations are shallowly embedded as executable Lean functions on
lists.  Where a definition encodes a documented pandas library behaviour
(resample bin labelling, `pct_change` float division, `sort_values` order,
`astype(str)` on NaN, `tz_localize` with `ambiguous='NaT'`), the doc comment
of the definition records the behaviour being encoded and the source line it
comes from.  Timestamps are modelled at calendar-date granularity: for the
frequencies the app offers ('D', 'W-MON', 'M'), pandas adjusts bin edges to
the end of the edge day (`_adjust_bin_edges`), so the bucket of an event
depends only on its local calendar date; the date-range filter (line 60) and
the metric labels also use only `.dt.date`.
-/

/-- Proleptic Gregorian calendar date (year, month, day), as the local
Asia/Tokyo calendar date of an event's timestamp. -/
structure Date where
  y : Nat
  m : Nat
  d : Nat
deriving DecidableEq, Repr

/-- A date is valid when the month is 1..12, the year is positive and the day
fits the month. -/
def isLeap (y : Nat) : Bool := y % 4 == 0 && (y % 100 != 0 || y % 400 == 0)

/-- Number of days of month `m` (1..12) of year `y`, Gregorian rules. -/
def daysInMonth (y m : Nat) : Nat :=
  match m with
  | 1 => 31
  | 2 => if isLeap y then 29 else 28
  | 3 => 31
  | 4 => 30
  | 5 => 31
  | 6 => 30
  | 7 => 31
  | 8 => 31
  | 9 => 30
  | 10 => 31
  | 11 => 30
  | 12 => 31
  | _ => 0

/-- Days in all years strictly before year `y` (proleptic Gregorian),
counting from 0001-01-01. -/
def daysBeforeYear (y : Nat) : Nat :=
  365 * (y - 1) + (y - 1) / 4 - (y - 1) / 100 + (y - 1) / 400

/-- Days in the months of year `y` strictly before month `m`. -/
def daysBeforeMonth (y m : Nat) : Nat :=
  (List.range (m - 1)).foldl (fun a i => a + daysInMonth y (i + 1)) 0

/-- Absolute day number: 0001-01-01 is day 0.  Day numbers taken mod 7 give
the weekday with Monday = 0 (0001-01-01 proleptic Gregorian is a Monday;
e.g. `dayNumber ⟨2024,1,1⟩ = 738885 = 7 * 105555`, and 2024-01-01 was a
Monday). -/
def Date.dayNumber (t : Date) : Nat :=
  daysBeforeYear t.y + daysBeforeMonth t.y t.m + (t.d - 1)

/-- Validity of a date: positive year, month 1..12, day within the month. -/
def Date.Valid (t : Date) : Prop :=
  1 ≤ t.y ∧ 1 ≤ t.m ∧ t.m ≤ 12 ∧ 1 ≤ t.d ∧ t.d ≤ daysInMonth t.y t.m

instance (t : Date) : Decidable t.Valid := by unfold Date.Valid; infer_instance

/-- The three aggregation granularities the sidebar offers (source line 49:
`freq_map = {'日次': 'D', '週次': 'W-MON', '月次': 'M'}`).  There is no
yearly option. -/
inductive Freq
  | D
  | WMON
  | M
deriving DecidableEq, Repr

/-- Month counter used to enumerate the dense month-end bins of freq 'M':
`monthIdx ⟨y,m,_⟩ = 12*y + (m-1)`. -/
def monthIdx (t : Date) : Nat := 12 * t.y + (t.m - 1)

/-- Day number of the last day of the month with counter `i`. -/
def monthEnd (i : Nat) : Nat :=
  Date.dayNumber ⟨i / 12, i % 12 + 1, daysInMonth (i / 12) (i % 12 + 1)⟩

/-- Bucket label assigned to an event date by
`pd.Grouper(key='timestamp', freq=freq)` (source lines 69-72), encoded as an
absolute day number.  Pandas labelling rules for the three offered
frequencies:
* 'D' is a tick frequency, closed/labelled left: the label is the event's
  own calendar day;
* 'W-MON' is weekly anchored on Monday, closed/labelled right: the bin is a
  Tuesday-to-Monday window and its label is the Monday that closes it, i.e.
  the first Monday on or after the event's date (an event already on a
  Monday keeps that Monday);
* 'M' is month-end frequency, closed/labelled right: the label is the last
  calendar day of the event's month.
For 'W-MON' and 'M' pandas shifts bin edges to the end of the edge day
(`_adjust_bin_edges`), so intra-day times never move an event across bins. -/
def bucketKey (f : Freq) (t : Date) : Nat :=
  match f with
  | .D => t.dayNumber
  | .WMON => t.dayNumber + (7 - t.dayNumber % 7) % 7
  | .M => Date.dayNumber ⟨t.y, t.m, daysInMonth t.y t.m⟩

/-- The granularities named by the specification, including the yearly one
the code does not offer. -/
inductive SpecFreq
  | day
  | week
  | month
  | year
deriving DecidableEq, Repr

/-- Modelled from the spec's words (for comparison with `bucketKey`): "day
boundary = calendar day; week boundary = Monday-anchored week start; month
boundary = first day of month; year boundary = January 1".  The week start
containing date `t` is the last Monday on or before `t`. -/
def specPeriodStart (f : SpecFreq) (t : Date) : Nat :=
  match f with
  | .day => t.dayNumber
  | .week => t.dayNumber - t.dayNumber % 7
  | .month => Date.dayNumber ⟨t.y, t.m, 1⟩
  | .year => Date.dayNumber ⟨t.y, 1, 1⟩

-- Stable sorting machinery --------------------------------------------------

/-- Insert `x` after every leading element `y` with `bef y x = true`
("`y` may stay before `x`").  Used to build stable sorts: a later-arriving
element never overtakes an earlier element it ties with. -/
def insertS {α : Type _} (bef : α → α → Bool) (x : α) : List α → List α
  | [] => [x]
  | y :: ys => if bef y x then y :: insertS bef x ys else x :: y :: ys

/-- Stable insertion sort: elements are inserted left to right.  With
`bef y x := key y ≤ key x` this is a stable ascending sort by `key` (ties
keep input order); with `bef y x := key x ≤ key y` it is a stable descending
sort, the order Python's `sorted(..., reverse=True)` guarantees. -/
def stableSortBy {α : Type _} (bef : α → α → Bool) (xs : List α) : List α :=
  xs.foldl (fun acc x => insertS bef x acc) []

-- Sorted distinct values (the index a pandas groupby produces) --------------

/-- A strict-order test `ltb` is adequate for building sorted indexes when it
is irreflexive, transitive and total on distinct elements. -/
def StrictOrderB {α : Type _} (ltb : α → α → Bool) : Prop :=
  (∀ a, ltb a a = false) ∧
  (∀ a b c, ltb a b = true → ltb b c = true → ltb a c = true) ∧
  (∀ a b, a ≠ b → ltb a b = true ∨ ltb b a = true)

/-- Strict comparison on `Nat` as a Bool test. -/
def natLtb (a b : Nat) : Bool := decide (a < b)

/-- Lexicographic comparison of code-point lists. -/
def codeLt : List Nat → List Nat → Bool
  | [], [] => false
  | [], _ :: _ => true
  | _ :: _, [] => false
  | a :: as, b :: bs => if a < b then true else if b < a then false else codeLt as bs

/-- Python's string ordering (also the one pandas uses to sort groupby
keys): lexicographic on Unicode code points. -/
def strLtb (s t : String) : Bool :=
  codeLt (s.data.map Char.toNat) (t.data.map Char.toNat)

/-- Insert `x` into a strictly increasing list, skipping it when present. -/
def insertSet {α : Type _} [DecidableEq α] (ltb : α → α → Bool) (x : α) : List α → List α
  | [] => [x]
  | y :: ys => if x = y then y :: ys
               else if ltb x y then x :: y :: ys else y :: insertSet ltb x ys

/-- The strictly increasing list of the distinct values of `xs`: pandas
`groupby(col)` (with its default `sort=True`) indexes its result by exactly
this list. -/
def sortedDedup {α : Type _} [DecidableEq α] (ltb : α → α → Bool) (xs : List α) : List α :=
  xs.foldl (fun acc x => insertSet ltb x acc) []

-- Data model and normalizer -------------------------------------------------

/-- How a row's naive local wall-clock time behaves under
`tz_localize('Asia/Tokyo', ambiguous='NaT', nonexistent='shift_forward')`
(source line 36).  Asia/Tokyo observed DST in 1948-1951, so ambiguous local
times (the repeated 00:00-01:00 hour after each September fall-back, e.g.
1948-09-12 00:30) and nonexistent ones (the skipped 00:00-01:00 hour after
each spring forward, e.g. 1948-05-02 00:30) do occur for such timestamps. -/
inductive LocalKind
  | normal
  | ambiguous
  | nonexistent
deriving DecidableEq, Repr

/-- A raw spreadsheet row.  `ts` is the outcome of
`pd.to_datetime(df['timestamp'], errors='coerce')` (source line 28) at
calendar-date granularity: `none` is a NaT from an unparsable cell.  A
missing categorical cell is `none` (a float NaN in pandas). -/
structure RawRow where
  ts : Option Date
  kind : LocalKind
  host : Option String
  url : Option String
  connector : Option String
deriving DecidableEq, Repr

/-- A row of the normalized table `load_data` returns.  `ts = none` is a NaT
introduced by `ambiguous='NaT'` during localization. -/
structure NormRow where
  ts : Option Date
  host : String
  url : String
  connector : String
deriving DecidableEq, Repr

/-- `astype(str).str.strip()` on one cell (source lines 30-32): pandas
renders a missing (NaN) cell as the literal string "nan"; a present value is
whitespace-stripped. -/
def strAstype (v : Option String) : String :=
  match v with
  | none => "nan"
  | some s => s.trim

/-- `tz_localize('Asia/Tokyo', ambiguous='NaT', nonexistent='shift_forward')`
on one timestamp, at date granularity: an ambiguous wall-clock time becomes
NaT; a nonexistent one is shifted forward to the next valid instant, which
lies one hour into the same calendar day, so its date is unchanged. -/
def localizeTokyo (d : Date) (k : LocalKind) : Option Date :=
  match k with
  | .normal => some d
  | .ambiguous => none
  | .nonexistent => some d

/-- One surviving row after cleaning: stripped strings (lines 30-32) and the
localized timestamp (line 36). -/
def normalizeRow (r : RawRow) : NormRow :=
  { ts := match r.ts with
          | none => none
          | some d => localizeTokyo d r.kind
    host := strAstype r.host
    url := strAstype r.url
    connector := strAstype r.connector }

/-- The cleaning steps of `load_data` (source lines 28-37), in source order:
parse (already reflected in `RawRow.ts`), `dropna(subset=['timestamp'])`,
`astype(str).str.strip()` on host/url/connector, then `tz_localize(...)`.
The NaT values that `ambiguous='NaT'` introduces appear AFTER the dropna and
are never dropped. -/
def load_data (rows : List RawRow) : List NormRow :=
  (rows.filter (fun r => r.ts.isSome)).map normalizeRow

-- Filter stage ---------------------------------------------------------------

/-- Source lines 55-56: `min_date = df['timestamp'].min().date()` and the
matching `max().date()`, as day numbers.  A pandas Series min/max skips NaT
and yields NaT on an empty or all-NaT column, and `NaT.date()` raises
`ValueError: NaTType does not support date`; the call sits outside the
try/except that guards `load_data` only, so the app crashes here. -/
def dateBounds (rows : List NormRow) : Except String (Nat × Nat) :=
  match (rows.filterMap (fun r => r.ts)).map Date.dayNumber with
  | [] => .error "NaTType does not support date"
  | k :: ks => .ok (ks.foldl Nat.min k, ks.foldl Nat.max k)

/-- Date-range mask (source line 60): inclusive on both calendar dates; a
NaT timestamp compares False on both sides and the row is dropped. -/
def dateMask (start stop : Nat) (r : NormRow) : Bool :=
  match r.ts with
  | none => false
  | some d => decide (start ≤ d.dayNumber) && decide (d.dayNumber ≤ stop)

/-- Source line 61: `df.loc[mask]`. -/
def filterByDate (start stop : Nat) (rows : List NormRow) : List NormRow :=
  rows.filter (dateMask start stop)

/-- Case-insensitive containment modelling
`df['url'].str.contains(kw, case=False, na=False)` (source line 66) for
keywords without regex metacharacters (pandas compiles the keyword as a
regular expression; on plain text that is substring search). -/
def containsCI (s kw : String) : Bool :=
  decide (kw.toLower.data <:+: s.toLower.data)

/-- Keyword filter (source lines 64-66), applied only to a nonempty keyword
(`if kw:`). -/
def keywordFilter (kw : String) (rows : List NormRow) : List NormRow :=
  if kw = "" then rows else rows.filter (fun r => containsCI r.url kw)

/-- An event that enters aggregation, keyed by its (non-null) timestamp.
`pd.Grouper` silently drops NaT-keyed rows; after the date mask none
remain. -/
structure Event where
  date : Date
  host : String
  url : String
  connector : String
deriving DecidableEq, Repr

/-- The rows of the filtered table with their timestamps, as aggregation
inputs. -/
def toEvents (rows : List NormRow) : List Event :=
  rows.filterMap (fun r => r.ts.map (fun d => ⟨d, r.host, r.url, r.connector⟩))

-- Aggregator -----------------------------------------------------------------

/-- Dense label progression from the least to the greatest key with the given
step (the resample binner runs from the first to the last label). -/
def denseRange (step : Nat) (ks : List Nat) : List Nat :=
  match ks with
  | [] => []
  | k :: ks' => List.range' (ks'.foldl Nat.min k)
      ((ks'.foldl Nat.max k - ks'.foldl Nat.min k) / step + 1) step

/-- Labels of the bins `df.groupby(pd.Grouper(key='timestamp', freq=f)).size()`
produces (source line 70).  A lone time Grouper routes through resample
binning, which materialises EVERY bin between the first and the last label —
daily labels step 1 day, 'W-MON' labels step 7 days, 'M' labels run over
consecutive month ends — including interior bins no event falls into. -/
def binLabels (f : Freq) (evs : List Event) : List Nat :=
  match f with
  | .D => denseRange 1 (evs.map (fun e => bucketKey .D e.date))
  | .WMON => denseRange 7 (evs.map (fun e => bucketKey .WMON e.date))
  | .M => (denseRange 1 (evs.map (fun e => monthIdx e.date))).map monthEnd

/-- Overall aggregation (source line 70): one (label, count) row per bin of
the dense binner, in ascending label order; interior rows may carry count 0.
-/
def aggregateOverall (f : Freq) (evs : List Event) : List (Nat × Nat) :=
  (binLabels f evs).map (fun L => (L, evs.countP (fun e => bucketKey f e.date == L)))

/-- Grouped aggregation (source line 72):
`df.groupby([dim, pd.Grouper(...)]).size().reset_index()`.  With a plain
column key next to the time Grouper only OBSERVED (group, bin) combinations
are emitted (see the pandas user-guide Grouper example, where event-free
months are absent), ordered by (group, label) since groupby sorts keys. -/
def aggregateGrouped (f : Freq) (dim : Event → String) (evs : List Event) :
    List (String × Nat × Nat) :=
  (sortedDedup strLtb (evs.map dim)).flatMap (fun g =>
    let ge := evs.filter (fun e => dim e == g)
    (sortedDedup natLtb (ge.map (fun e => bucketKey f e.date))).map
      (fun L => (g, L, ge.countP (fun e => bucketKey f e.date == L))))

-- Top-N selector -------------------------------------------------------------

/-- Per-group totals (source line 84): `grouped.groupby(dim)['count'].sum()`,
a series indexed by the lexicographically sorted distinct group names. -/
def groupTotals (rows : List (String × Nat × Nat)) : List (String × Nat) :=
  (sortedDedup strLtb (rows.map (fun r => r.1))).map (fun g =>
    (g, ((rows.filter (fun r => r.1 == g)).map (fun r => r.2.2)).sum))

/-- `sort_values(ascending=False)` on that series: pandas `nargsort` argsorts
ascending with numpy's default quicksort and REVERSES the resulting
permutation.  numpy's quicksort is documented as not stable, so for 16 or
more elements the order of tied entries is unspecified (though deterministic
for identical input); below 16 elements the introsort degenerates to a
single stable insertion-sort pass.  This model fixes the stable tie order
throughout, so it agrees with pandas exactly on fewer than 16 groups; the
one theorem whose statement depends on the tie order (`C7_amended`) carries
that bound as a hypothesis, while the top-N cardinality and row-preservation
facts (`C6_topn`) hold under every permutation of tied groups and are
therefore unaffected by the choice. -/
def sort_values_desc (l : List (String × Nat)) : List (String × Nat) :=
  (stableSortBy (fun a b => decide (a.2 ≤ b.2)) l).reverse

/-- `latest_totals` (source line 84): the names of the first `n` entries of
the descending sort, via `.head(topn).index.tolist()`. -/
def latest_totals (n : Nat) (rows : List (String × Nat × Nat)) : List String :=
  ((sort_values_desc (groupTotals rows)).take n).map (fun p => p.1)

/-- Source line 85: `grouped = grouped[grouped[dim].isin(latest_totals)]`. -/
def topNFilter (n : Nat) (rows : List (String × Nat × Nat)) : List (String × Nat × Nat) :=
  rows.filter (fun r => (latest_totals n rows).contains r.1)

/-- Number of distinct groups of a grouped series. -/
def numGroups (rows : List (String × Nat × Nat)) : Nat :=
  (sortedDedup strLtb (rows.map (fun r => r.1))).length

/-- Keeps the first occurrence of each value, in first-appearance order. -/
def firstAppearance (xs : List String) : List String :=
  xs.foldl (fun acc x => if acc.contains x then acc else acc ++ [x]) []

/-- Modelled from the spec's words (for comparison with `latest_totals`):
"sort groups by total descending; ties broken by a stable, deterministic
secondary key (original first-appearance order); keep only the top N
groups" — a stable descending sort of the groups listed in their order of
first appearance in the event table, then the first `n` names. -/
def specTopGroups (n : Nat) (dim : Event → String) (evs : List Event)
    (rows : List (String × Nat × Nat)) : List String :=
  let totals := (firstAppearance (evs.map dim)).map (fun g =>
    (g, ((rows.filter (fun r => r.1 == g)).map (fun r => r.2.2)).sum))
  ((stableSortBy (fun a b => decide (b.2 ≤ a.2)) totals).take n).map (fun p => p.1)

-- Growth calculator ----------------------------------------------------------

/-- An exact ratio with a positive denominator, kept unnormalised.  The
float ratios this program computes are compared by cross-multiplication,
which coincides with the IEEE comparison of the corresponding doubles at
dashboard magnitudes. -/
structure Frac where
  num : Int
  den : Nat
  den_pos : 0 < den

instance : DecidableEq Frac := fun a b =>
  decidable_of_iff (a.num = b.num ∧ a.den = b.den)
    (by cases a; cases b; simp)

/-- The rational value a `Frac` denotes. -/
def Frac.toQ (f : Frac) : ℚ := (f.num : ℚ) / (f.den : ℚ)

/-- Comparison of two exact ratios by cross-multiplication. -/
def fracLE (a b : Frac) : Bool := decide (a.num * b.den ≤ b.num * a.den)

/-- The float values `pct_change` can produce on count data: an exact ratio,
+inf (x/0 with x > 0 in IEEE division) or NaN (0/0). -/
inductive PFloat
  | nan
  | inf
  | val (q : Frac)
deriving DecidableEq

/-- The last entry of `g['count'].pct_change()` (source lines 100, 105):
last/prev - 1 = (last - prev)/prev in float arithmetic.  Counts are
nonnegative, so prev = 0 yields +inf when last > 0 and NaN when last = 0. -/
def pctChangeLast (lastC prevC : Nat) : PFloat :=
  if h : prevC = 0 then (if lastC = 0 then .nan else .inf)
  else .val ⟨(lastC : Int) - (prevC : Int), prevC, Nat.pos_of_ne_zero h⟩

/-- `pd.notna` on a `pct_change` value: only NaN is "na"; +inf is notna. -/
def pnotna (p : PFloat) : Bool :=
  match p with
  | .nan => false
  | _ => true

/-- What `show_metrics` renders (source lines 98-115): the st.info message
asking for two periods, or an st.metric whose delta string is the numeric
`f"{delta:+d} 件 / {pct*100:.1f} %"` when `pd.notna(pct)` holds
(`deltaText = some (delta, pct)`) and the placeholder "—" otherwise
(`deltaText = none`). -/
inductive MetricsOut
  | needTwoPeriods
  | metric (prevLabel lastLabel : Nat) (value : Nat) (deltaText : Option (Int × PFloat))
deriving DecidableEq

/-- `show_metrics(g)` on (period label, count) rows: sort by timestamp; with
at least two rows take the last two, `delta = last - prev` and `pct` =
`pct_change`'s last value; the "—" fallback fires only when pct is NaN. -/
def show_metrics (g : List (Nat × Nat)) : MetricsOut :=
  let s := stableSortBy (fun a b => decide (a.1 ≤ b.1)) g
  match s.reverse with
  | lastR :: prevR :: _ =>
    .metric prevR.1 lastR.1 lastR.2
      (if pnotna (pctChangeLast lastR.2 prevR.2) then
        some ((lastR.2 : Int) - (prevR.2 : Int), pctChangeLast lastR.2 prevR.2)
      else none)
  | _ => .needTwoPeriods

/-- Sort key order for per-group growth ranking: NaN pct is keyed as -inf
(source line 130), so `none` sorts below every ratio. -/
def optLE (a b : Option Frac) : Bool :=
  match a, b with
  | none, _ => true
  | some _, none => false
  | some x, some y => fracLE x y

/-- The pct of one group's (label, count) rows (source lines 124-129): sort
by timestamp; with at least two rows,
`pct = (last - prev)/prev if prev != 0 else nan` (`none` is the NaN);
with fewer the group produces nothing. -/
def groupPct (g : List (String × Nat × Nat)) : Option (Option Frac) :=
  match (stableSortBy (fun a b => decide (a.2.1 ≤ b.2.1)) g).reverse with
  | lastR :: prevR :: _ =>
      some (if h : prevR.2.2 = 0 then none
            else some ⟨(lastR.2.2 : Int) - (prevR.2.2 : Int), prevR.2.2,
                       Nat.pos_of_ne_zero h⟩)
  | _ => none

/-- The per-group growth ranking (source lines 120-130): for each group, in
the sorted order `grouped.groupby(dim)` iterates, append `(name, pct)` ONLY
when the group has at least two rows; then sort by pct descending (Python's
`sorted` is stable, NaN keyed as -inf sorts last) and keep the first 12. -/
def by_groups (rows : List (String × Nat × Nat)) : List (String × Option Frac) :=
  let items := (sortedDedup strLtb (rows.map (fun r => r.1))).filterMap (fun nm =>
    (groupPct (rows.filter (fun r => r.1 == nm))).map (fun p => (nm, p)))
  (stableSortBy (fun a b => optLE b.2 a.2) items).take 12

-- Sum of counts --------------------------------------------------------------

/-- Total of the count column of an overall aggregated series. -/
def sumCounts (l : List (Nat × Nat)) : Nat := (l.map (fun r => r.2)).sum

/-- Total of the count column of a grouped aggregated series. -/
def sumCountsG (l : List (String × Nat × Nat)) : Nat := (l.map (fun r => r.2.2)).sum

-- Theorems ------------------------------------------------------------------

-- Calendar lemmas ----------------------------------------------------------

theorem daysBeforeMonth_succ (y m : Nat) (h : 1 ≤ m) :
    daysBeforeMonth y (m + 1) = daysBeforeMonth y m + daysInMonth y m := by
  unfold daysBeforeMonth
  have : m + 1 - 1 = (m - 1) + 1 := by omega
  rw [this, List.range_succ, List.foldl_append]
  have : m - 1 + 1 = m := by omega
  simp [this]

theorem daysBeforeMonth_year (y : Nat) :
    daysBeforeMonth y 12 + daysInMonth y 12 = 365 + (if isLeap y then 1 else 0) := by
  cases h : isLeap y <;>
    simp [daysBeforeMonth, List.range, List.range.loop, daysInMonth, h]

theorem isLeap_iff (y : Nat) :
    isLeap y = true ↔ (y % 4 = 0 ∧ (y % 100 ≠ 0 ∨ y % 400 = 0)) := by
  simp [isLeap]

theorem leap_ite (y : Nat) :
    (if isLeap y then (1 : Nat) else 0) =
      if y % 4 = 0 ∧ (y % 100 ≠ 0 ∨ y % 400 = 0) then 1 else 0 := by
  simp only [isLeap_iff y]

theorem daysBeforeYear_succ (y : Nat) (h : 1 ≤ y) :
    daysBeforeYear (y + 1) = daysBeforeYear y + 365 + (if isLeap y then 1 else 0) := by
  rw [leap_ite]
  unfold daysBeforeYear
  simp only [Nat.add_sub_cancel]
  have h1 : y / 100 ≤ 365 * y + y / 4 := by omega
  have h2 : (y - 1) / 100 ≤ 365 * (y - 1) + (y - 1) / 4 := by omega
  split <;> zify [h, h1, h2] <;> omega

theorem daysInMonth_pos (y m : Nat) (h1 : 1 ≤ m) (h2 : m ≤ 12) : 1 ≤ daysInMonth y m := by
  interval_cases m <;> cases hL : isLeap y <;> simp [daysInMonth, hL]

theorem monthEnd_eq (i : Nat) :
    monthEnd i = daysBeforeYear (i / 12) + daysBeforeMonth (i / 12) (i % 12 + 1) +
      (daysInMonth (i / 12) (i % 12 + 1) - 1) := rfl

/-- `monthEnd` recovers `bucketKey .M` on valid dates. -/
theorem monthEnd_monthIdx (t : Date) (h : t.Valid) :
    monthEnd (monthIdx t) = bucketKey .M t := by
  obtain ⟨hy, hm1, hm2, _, _⟩ := h
  unfold monthEnd monthIdx bucketKey
  have hdiv : (12 * t.y + (t.m - 1)) / 12 = t.y := by omega
  have hmod : (12 * t.y + (t.m - 1)) % 12 + 1 = t.m := by omega
  rw [hdiv, hmod]

/-- Strict monotonicity of month-end day numbers from year 1 onwards. -/
theorem monthEnd_lt_succ (i : Nat) (h : 12 ≤ i) : monthEnd i < monthEnd (i + 1) := by
  rw [monthEnd_eq, monthEnd_eq]
  rcases Nat.lt_or_ge (i % 12) 11 with hlt | hge
  · -- same year, next month
    have hy : (i + 1) / 12 = i / 12 := by omega
    have hm : (i + 1) % 12 = i % 12 + 1 := by omega
    rw [hy, hm]
    have hstep := daysBeforeMonth_succ (i / 12) (i % 12 + 1) (by omega)
    have hpos : 1 ≤ daysInMonth (i / 12) (i % 12 + 1 + 1) :=
      daysInMonth_pos _ _ (by omega) (by omega)
    have hpos0 : 1 ≤ daysInMonth (i / 12) (i % 12 + 1) :=
      daysInMonth_pos _ _ (by omega) (by omega)
    omega
  · -- December to January of the next year
    have h11 : i % 12 = 11 := by omega
    have hy : (i + 1) / 12 = i / 12 + 1 := by omega
    have hm : (i + 1) % 12 = 0 := by omega
    rw [hy, hm, h11]
    norm_num
    have hyear := daysBeforeYear_succ (i / 12) (by omega)
    have hsum := daysBeforeMonth_year (i / 12)
    have hjan : daysBeforeMonth (i / 12 + 1) 1 = 0 := rfl
    have h12 : daysInMonth (i / 12) 12 = 31 := rfl
    have hj : daysInMonth (i / 12 + 1) 1 = 31 := rfl
    rw [h12] at hsum
    cases hL : isLeap (i / 12) <;> simp [hL] at hsum hyear <;> omega

/-- Within a valid month, every day's number is at most the month-end number,
and the month end precedes the next month's first day. -/
theorem dayNumber_le_monthEnd (t : Date) (h : t.Valid) :
    t.dayNumber ≤ bucketKey .M t := by
  obtain ⟨hy, hm1, hm2, hd1, hd2⟩ := h
  unfold bucketKey Date.dayNumber
  simp only
  omega

/-- C4 counterexample input: 2024-01-02 was a Tuesday.  Its 'W-MON' bucket
label is Monday 2024-01-08 (the Monday closing the Tue-Mon window), not the
Monday 2024-01-01 that starts the calendar week containing it; and the 'M'
bucket label of 2024-01-15 is 2024-01-31, not 2024-01-01. -/
theorem C4_counterexample :
    bucketKey .WMON ⟨2024, 1, 2⟩ ≠ specPeriodStart .week ⟨2024, 1, 2⟩ ∧
    bucketKey .WMON ⟨2024, 1, 2⟩ = Date.dayNumber ⟨2024, 1, 8⟩ ∧
    bucketKey .M ⟨2024, 1, 15⟩ ≠ specPeriodStart .month ⟨2024, 1, 15⟩ ∧
    bucketKey .M ⟨2024, 1, 15⟩ = Date.dayNumber ⟨2024, 1, 31⟩ := by
  refine ⟨by decide, by decide, by decide, by decide⟩

/-- C4 (amended): the code offers only day, week and month granularities (no
yearly option).  The bucket key is a total function of the event date; for
day granularity it is the event's calendar day; for week granularity it is
the unique Monday `w` with `t ≤ w < t + 7 days` — the Monday that CLOSES the
pandas 'W-MON' window, not the week start containing the event; for month
granularity it is the LAST day of the event's month, not the first. -/
theorem C4_amended (f : Freq) (t : Date) (h : t.Valid) :
    (f = .D ∨ f = .WMON ∨ f = .M) ∧
    bucketKey .D t = t.dayNumber ∧
    (bucketKey .WMON t % 7 = 0 ∧ t.dayNumber ≤ bucketKey .WMON t ∧
      bucketKey .WMON t < t.dayNumber + 7) ∧
    (bucketKey .M t = Date.dayNumber ⟨t.y, t.m, daysInMonth t.y t.m⟩ ∧
      t.dayNumber ≤ bucketKey .M t) := by
  refine ⟨by cases f <;> simp, rfl, ⟨?_, ?_, ?_⟩, rfl, dayNumber_le_monthEnd t h⟩
  · simp only [bucketKey]; omega
  · simp only [bucketKey]; omega
  · simp only [bucketKey]; omega

/-- Witness for `C4_amended` at the concrete valid date 2024-01-02. -/
theorem C4_witness :
    (Date.Valid ⟨2024, 1, 2⟩) ∧
    ((Freq.WMON = .D ∨ Freq.WMON = .WMON ∨ Freq.WMON = .M) ∧
      bucketKey .D ⟨2024, 1, 2⟩ = Date.dayNumber ⟨2024, 1, 2⟩ ∧
      (bucketKey .WMON ⟨2024, 1, 2⟩ % 7 = 0 ∧
        Date.dayNumber ⟨2024, 1, 2⟩ ≤ bucketKey .WMON ⟨2024, 1, 2⟩ ∧
        bucketKey .WMON ⟨2024, 1, 2⟩ < Date.dayNumber ⟨2024, 1, 2⟩ + 7) ∧
      (bucketKey .M ⟨2024, 1, 2⟩ =
          Date.dayNumber ⟨2024, 1, 2024 |> fun y => daysInMonth y 1⟩ ∧
        Date.dayNumber ⟨2024, 1, 2⟩ ≤ bucketKey .M ⟨2024, 1, 2⟩)) :=
  ⟨by decide, C4_amended .WMON ⟨2024, 1, 2⟩ (by decide)⟩

theorem mem_insertS {α : Type _} (bef : α → α → Bool) (x a : α) (l : List α) :
    a ∈ insertS bef x l ↔ a = x ∨ a ∈ l := by
  induction l with
  | nil => simp [insertS]
  | cons y ys ih =>
    simp only [insertS]
    split
    · simp only [List.mem_cons, ih]
      tauto
    · simp [List.mem_cons]

theorem insertS_perm {α : Type _} (bef : α → α → Bool) (x : α) (l : List α) :
    (insertS bef x l).Perm (x :: l) := by
  induction l with
  | nil => exact List.Perm.refl _
  | cons y ys ih =>
    simp only [insertS]
    split
    · exact (ih.cons y).trans (List.Perm.swap x y ys)
    · exact List.Perm.refl _

theorem stableSortBy_perm_aux {α : Type _} (bef : α → α → Bool) (xs acc : List α) :
    (xs.foldl (fun acc x => insertS bef x acc) acc).Perm (acc ++ xs) := by
  induction xs generalizing acc with
  | nil => simp
  | cons x xs ih =>
    simp only [List.foldl_cons]
    refine (ih (insertS bef x acc)).trans ?_
    refine (List.Perm.append_right xs (insertS_perm bef x acc)).trans ?_
    exact List.perm_middle.symm

theorem stableSortBy_perm {α : Type _} (bef : α → α → Bool) (xs : List α) :
    (stableSortBy bef xs).Perm xs := by
  simpa using stableSortBy_perm_aux bef xs []

theorem length_stableSortBy {α : Type _} (bef : α → α → Bool) (xs : List α) :
    (stableSortBy bef xs).length = xs.length :=
  (stableSortBy_perm bef xs).length_eq

theorem mem_stableSortBy {α : Type _} (bef : α → α → Bool) (xs : List α) (a : α) :
    a ∈ stableSortBy bef xs ↔ a ∈ xs :=
  (stableSortBy_perm bef xs).mem_iff

theorem pairwise_insertS {α : Type _} (bef : α → α → Bool)
    (htr : ∀ a b c, bef a b = true → bef b c = true → bef a c = true)
    (hto : ∀ a b, bef a b = true ∨ bef b a = true)
    (x : α) (l : List α) (hl : l.Pairwise (fun a b => bef a b = true)) :
    (insertS bef x l).Pairwise (fun a b => bef a b = true) := by
  induction l with
  | nil => simp [insertS]
  | cons y ys ih =>
    rw [List.pairwise_cons] at hl
    obtain ⟨hy, hys⟩ := hl
    simp only [insertS]
    by_cases hc : bef y x = true
    · rw [if_pos hc]
      refine List.Pairwise.cons ?_ (ih hys)
      intro b hb
      rcases (mem_insertS bef x b ys).mp hb with rfl | hb
      · exact hc
      · exact hy b hb
    · rw [if_neg hc]
      have hxy : bef x y = true := (hto x y).resolve_right hc
      refine List.Pairwise.cons ?_ (List.Pairwise.cons hy hys)
      intro b hb
      rcases List.mem_cons.mp hb with rfl | hb
      · exact hxy
      · exact htr x y b hxy (hy b hb)

theorem pairwise_stableSortBy {α : Type _} (bef : α → α → Bool)
    (htr : ∀ a b c, bef a b = true → bef b c = true → bef a c = true)
    (hto : ∀ a b, bef a b = true ∨ bef b a = true) (xs : List α) :
    (stableSortBy bef xs).Pairwise (fun a b => bef a b = true) := by
  suffices h : ∀ (ys acc : List α), acc.Pairwise (fun a b => bef a b = true) →
      (ys.foldl (fun acc x => insertS bef x acc) acc).Pairwise (fun a b => bef a b = true) by
    exact h xs [] (by simp)
  intro ys
  induction ys with
  | nil => exact fun acc h => h
  | cons x ys ih => exact fun acc h => ih _ (pairwise_insertS bef htr hto x acc h)

theorem mem_insertSet {α : Type _} [DecidableEq α] (ltb : α → α → Bool)
    (x a : α) (l : List α) : a ∈ insertSet ltb x l ↔ a = x ∨ a ∈ l := by
  induction l with
  | nil => simp [insertSet]
  | cons y ys ih =>
    simp only [insertSet]
    by_cases h1 : x = y
    · subst h1
      rw [if_pos rfl]
      simp only [List.mem_cons]
      tauto
    · rw [if_neg h1]
      by_cases h2 : ltb x y = true
      · rw [if_pos h2]
        simp [List.mem_cons]
      · rw [if_neg h2]
        simp only [List.mem_cons, ih]
        tauto

theorem pairwise_insertSet {α : Type _} [DecidableEq α] (ltb : α → α → Bool)
    (hso : StrictOrderB ltb) (x : α) (l : List α)
    (hl : l.Pairwise (fun a b => ltb a b = true)) :
    (insertSet ltb x l).Pairwise (fun a b => ltb a b = true) := by
  obtain ⟨-, htr, hto⟩ := hso
  induction l with
  | nil => simp [insertSet]
  | cons y ys ih =>
    rw [List.pairwise_cons] at hl
    obtain ⟨hy, hys⟩ := hl
    simp only [insertSet]
    by_cases h1 : x = y
    · rw [if_pos h1]
      exact List.Pairwise.cons hy hys
    · rw [if_neg h1]
      by_cases h2 : ltb x y = true
      · rw [if_pos h2]
        refine List.Pairwise.cons ?_ (List.Pairwise.cons hy hys)
        intro b hb
        rcases List.mem_cons.mp hb with rfl | hb
        · exact h2
        · exact htr x y b h2 (hy b hb)
      · rw [if_neg h2]
        have hyx : ltb y x = true := (hto x y h1).resolve_left h2
        refine List.Pairwise.cons ?_ (ih hys)
        intro b hb
        rcases (mem_insertSet ltb x b ys).mp hb with rfl | hb
        · exact hyx
        · exact hy b hb

theorem pairwise_sortedDedup {α : Type _} [DecidableEq α] (ltb : α → α → Bool)
    (hso : StrictOrderB ltb) (xs : List α) :
    (sortedDedup ltb xs).Pairwise (fun a b => ltb a b = true) := by
  suffices h : ∀ (ys acc : List α), acc.Pairwise (fun a b => ltb a b = true) →
      (ys.foldl (fun acc x => insertSet ltb x acc) acc).Pairwise
        (fun a b => ltb a b = true) by
    exact h xs [] (by simp)
  intro ys
  induction ys with
  | nil => exact fun acc h => h
  | cons x ys ih => exact fun acc h => ih _ (pairwise_insertSet ltb hso x acc h)

theorem mem_sortedDedup {α : Type _} [DecidableEq α] (ltb : α → α → Bool)
    (xs : List α) (a : α) : a ∈ sortedDedup ltb xs ↔ a ∈ xs := by
  suffices h : ∀ (ys acc : List α),
      (a ∈ ys.foldl (fun acc x => insertSet ltb x acc) acc ↔ a ∈ acc ∨ a ∈ ys) by
    simpa using h xs []
  intro ys
  induction ys with
  | nil => simp
  | cons x ys ih =>
    intro acc
    simp only [List.foldl_cons, ih, mem_insertSet, List.mem_cons]
    tauto

theorem nodup_sortedDedup {α : Type _} [DecidableEq α] (ltb : α → α → Bool)
    (hso : StrictOrderB ltb) (xs : List α) : (sortedDedup ltb xs).Nodup :=
  (pairwise_sortedDedup ltb hso xs).imp
    (fun hab => fun he => by subst he; simp [hso.1] at hab)

theorem natLtb_strictOrder : StrictOrderB natLtb := by
  refine ⟨fun a => ?_, fun a b c h1 h2 => ?_, fun a b h => ?_⟩
  · simp [natLtb]
  · simp only [natLtb, decide_eq_true_eq] at h1 h2 ⊢
    omega
  · simp only [natLtb, decide_eq_true_eq]
    omega

theorem codeLt_irrefl (l : List Nat) : codeLt l l = false := by
  induction l with
  | nil => rfl
  | cons a as ih => simp [codeLt, ih]

theorem codeLt_trans (a b c : List Nat) (h1 : codeLt a b = true)
    (h2 : codeLt b c = true) : codeLt a c = true := by
  induction a generalizing b c with
  | nil =>
    cases b with
    | nil => simp [codeLt] at h1
    | cons y ys =>
      cases c with
      | nil => simp [codeLt] at h2
      | cons z zs => simp [codeLt]
  | cons x xs ih =>
    cases b with
    | nil => simp [codeLt] at h1
    | cons y ys =>
      cases c with
      | nil => simp [codeLt] at h2
      | cons z zs =>
        simp only [codeLt] at h1 h2 ⊢
        by_cases hxy : x < y
        · by_cases hyz : y < z
          · rw [if_pos (by omega)]
          · rw [if_pos hxy] at h1
            by_cases hzy : z < y
            · rw [if_neg hyz, if_pos hzy] at h2
              simp at h2
            · rw [if_pos (by omega)]
        · rw [if_neg hxy] at h1
          by_cases hyx : y < x
          · rw [if_pos hyx] at h1
            simp at h1
          · by_cases hyz : y < z
            · rw [if_pos (by omega)]
            · rw [if_neg hyz] at h2
              by_cases hzy : z < y
              · rw [if_pos hzy] at h2
                simp at h2
              · rw [if_neg (by omega), if_neg (by omega)]
                rw [if_neg hyx] at h1
                rw [if_neg hzy] at h2
                exact ih ys zs h1 h2

theorem codeLt_total (a b : List Nat) (hne : a ≠ b) :
    codeLt a b = true ∨ codeLt b a = true := by
  induction a generalizing b with
  | nil =>
    cases b with
    | nil => exact absurd rfl hne
    | cons y ys => left; simp [codeLt]
  | cons x xs ih =>
    cases b with
    | nil => right; simp [codeLt]
    | cons y ys =>
      by_cases hxy : x < y
      · left; simp [codeLt, hxy]
      · by_cases hyx : y < x
        · right; simp [codeLt, hyx]
        · have hx : x = y := by omega
          subst hx
          have hne' : xs ≠ ys := by
            intro h
            exact hne (by rw [h])
          rcases ih ys hne' with h | h
          · left; simp [codeLt, h]
          · right; simp [codeLt, h]

theorem strLtb_strictOrder : StrictOrderB strLtb := by
  refine ⟨fun s => codeLt_irrefl _, fun a b c => codeLt_trans _ _ _, ?_⟩
  intro a b hne
  refine codeLt_total _ _ ?_
  intro h
  apply hne
  have hdata : a.data = b.data := by
    have hinj : Function.Injective Char.toNat := fun c d hcd =>
      Char.ext (UInt32.ext hcd)
    exact List.map_injective_iff.mpr hinj h
  cases a; cases b; exact congrArg String.mk hdata

-- Counting helpers -----------------------------------------------------------

theorem sum_map_zero {α : Type _} (l : List α) : (l.map (fun _ => (0 : Nat))).sum = 0 := by
  induction l <;> simp [*]

theorem sum_map_add {α : Type _} (f g : α → Nat) (l : List α) :
    (l.map (fun x => f x + g x)).sum = (l.map f).sum + (l.map g).sum := by
  induction l with
  | nil => simp
  | cons x xs ih =>
    simp only [List.map_cons, List.sum_cons, ih]
    omega

theorem sum_indicator_not_mem {α : Type _} [DecidableEq α] (labels : List α) (k : α)
    (h : k ∉ labels) :
    (labels.map (fun L => if k = L then (1 : Nat) else 0)).sum = 0 := by
  induction labels with
  | nil => simp
  | cons L ls ih =>
    simp only [List.mem_cons, not_or] at h
    simp [ih h.2, h.1]

theorem sum_indicator_mem {α : Type _} [DecidableEq α] (labels : List α) (k : α)
    (hmem : k ∈ labels) (hnd : labels.Nodup) :
    (labels.map (fun L => if k = L then (1 : Nat) else 0)).sum = 1 := by
  induction labels with
  | nil => simp at hmem
  | cons L ls ih =>
    rw [List.nodup_cons] at hnd
    by_cases he : k = L
    · subst he
      simp [sum_indicator_not_mem ls k hnd.1]
    · have hmem' : k ∈ ls := by
        rcases List.mem_cons.mp hmem with h1 | h1
        · exact absurd h1 he
        · exact h1
      simp [ih hmem' hnd.2, he]

theorem sum_count_eq_length {α : Type _} [DecidableEq α] (keys labels : List α)
    (hnd : labels.Nodup) (hcov : ∀ k ∈ keys, k ∈ labels) :
    (labels.map (fun L => keys.countP (fun x => x == L))).sum = keys.length := by
  induction keys with
  | nil => simp [sum_map_zero]
  | cons k ks ih =>
    have hk : k ∈ labels := hcov k (by simp)
    have hcov' : ∀ x ∈ ks, x ∈ labels := fun x hx => hcov x (by simp [hx])
    simp only [List.countP_cons, beq_iff_eq]
    rw [sum_map_add (fun L => ks.countP (fun x => x == L))
      (fun L => if k = L then 1 else 0) labels]
    rw [ih hcov', sum_indicator_mem labels k hk hnd]
    simp

-- Fold min/max helpers -------------------------------------------------------

theorem foldl_min_le_init (ks : List Nat) (a : Nat) : ks.foldl Nat.min a ≤ a := by
  induction ks generalizing a with
  | nil => simp
  | cons k ks ih =>
    simp only [List.foldl_cons]
    exact le_trans (ih (Nat.min a k)) (Nat.min_le_left a k)

theorem foldl_min_le_mem (ks : List Nat) (a x : Nat) (hx : x ∈ ks) :
    ks.foldl Nat.min a ≤ x := by
  induction ks generalizing a with
  | nil => simp at hx
  | cons k ks ih =>
    simp only [List.foldl_cons]
    rcases List.mem_cons.mp hx with rfl | hx
    · exact le_trans (foldl_min_le_init ks _) (Nat.min_le_right a x)
    · exact ih _ hx

theorem init_le_foldl_max (ks : List Nat) (a : Nat) : a ≤ ks.foldl Nat.max a := by
  induction ks generalizing a with
  | nil => simp
  | cons k ks ih =>
    simp only [List.foldl_cons]
    exact le_trans (Nat.le_max_left a k) (ih (Nat.max a k))

theorem mem_le_foldl_max (ks : List Nat) (a x : Nat) (hx : x ∈ ks) :
    x ≤ ks.foldl Nat.max a := by
  induction ks generalizing a with
  | nil => simp at hx
  | cons k ks ih =>
    simp only [List.foldl_cons]
    rcases List.mem_cons.mp hx with rfl | hx
    · exact le_trans (Nat.le_max_right a x) (init_le_foldl_max ks _)
    · exact ih _ hx

theorem foldl_min_mem (ks : List Nat) (a : Nat) : ks.foldl Nat.min a ∈ a :: ks := by
  induction ks generalizing a with
  | nil => simp
  | cons k ks ih =>
    simp only [List.foldl_cons]
    rcases List.mem_cons.mp (ih (Nat.min a k)) with h | h
    · rcases Nat.le_total a k with hak | hka
      · have hm : Nat.min a k = a := by simp [Nat.min_def, hak]
        rw [hm] at h ⊢
        simp [h]
      · have hm : Nat.min a k = k := by
          simp only [Nat.min_def]
          split <;> omega
        rw [hm] at h ⊢
        simp [h]
    · exact List.mem_cons_of_mem a (List.mem_cons_of_mem k h)

-- Dense range lemmas ---------------------------------------------------------

theorem range'_pairwise_lt (s n step : Nat) (hs : 0 < step) :
    (List.range' s n step).Pairwise (· < ·) := by
  induction n generalizing s with
  | zero => simp
  | succ n ih =>
    rw [List.range'_succ]
    refine List.Pairwise.cons ?_ (ih (s + step))
    intro b hb
    rw [List.mem_range'] at hb
    obtain ⟨i, _, rfl⟩ := hb
    omega

theorem mem_denseRange (step : Nat) (hs : 0 < step) (ks : List Nat) (k : Nat)
    (hk : k ∈ ks) (hcong : ∀ x ∈ ks, ∀ y ∈ ks, x % step = y % step) :
    k ∈ denseRange step ks := by
  cases ks with
  | nil => cases hk
  | cons k0 ks' =>
    simp only [denseRange]
    have hlok : ks'.foldl Nat.min k0 ≤ k := by
      rcases List.mem_cons.mp hk with rfl | h
      · exact foldl_min_le_init ks' k
      · exact foldl_min_le_mem ks' k0 k h
    have hkhi : k ≤ ks'.foldl Nat.max k0 := by
      rcases List.mem_cons.mp hk with rfl | h
      · exact init_le_foldl_max ks' k
      · exact mem_le_foldl_max ks' k0 k h
    have hmodeq : ks'.foldl Nat.min k0 % step = k % step :=
      hcong _ (foldl_min_mem ks' k0) k hk
    have hdvd : step ∣ (k - ks'.foldl Nat.min k0) := (Nat.modEq_iff_dvd' hlok).mp hmodeq
    obtain ⟨c, hc⟩ := hdvd
    rw [List.mem_range']
    refine ⟨c, ?_, by omega⟩
    have hle : c ≤ (ks'.foldl Nat.max k0 - ks'.foldl Nat.min k0) / step := by
      rw [Nat.le_div_iff_mul_le hs, Nat.mul_comm]
      omega
    omega

theorem nodup_denseRange (step : Nat) (hs : 0 < step) (ks : List Nat) :
    (denseRange step ks).Nodup := by
  cases ks with
  | nil => simp [denseRange]
  | cons k0 ks' =>
    simp only [denseRange]
    exact (range'_pairwise_lt _ _ _ hs).imp (fun h => ne_of_lt h)

-- Bucket label lemmas --------------------------------------------------------

theorem monthEnd_mono (a b : Nat) (h12 : 12 ≤ a) (hab : a < b) :
    monthEnd a < monthEnd b := by
  induction b with
  | zero => omega
  | succ b ih =>
    rcases Nat.lt_or_ge a b with h | h
    · exact (ih h).trans (monthEnd_lt_succ b (by omega))
    · have heq : a = b := by omega
      subst heq
      exact monthEnd_lt_succ a h12

theorem bucketKey_WMON_mod (t : Date) : bucketKey .WMON t % 7 = 0 := by
  simp only [bucketKey]
  omega

theorem monthIdx_ge (t : Date) (h : t.Valid) : 12 ≤ monthIdx t := by
  obtain ⟨hy, -, -, -, -⟩ := h
  simp only [monthIdx]
  omega

theorem mem_binLabels (f : Freq) (evs : List Event) (e : Event) (he : e ∈ evs)
    (hval : ∀ x ∈ evs, x.date.Valid) : bucketKey f e.date ∈ binLabels f evs := by
  cases f with
  | D =>
    exact mem_denseRange 1 (by omega) _ _ (List.mem_map_of_mem _ he)
      (fun x _ y _ => by omega)
  | WMON =>
    refine mem_denseRange 7 (by omega) _ _ (List.mem_map_of_mem _ he) ?_
    intro x hx y hy
    obtain ⟨ex, -, rfl⟩ := List.mem_map.mp hx
    obtain ⟨ey, -, rfl⟩ := List.mem_map.mp hy
    rw [bucketKey_WMON_mod, bucketKey_WMON_mod]
  | M =>
    simp only [binLabels]
    rw [← monthEnd_monthIdx e.date (hval e he)]
    exact List.mem_map_of_mem _
      (mem_denseRange 1 (by omega) _ _ (List.mem_map_of_mem _ he)
        (fun x _ y _ => by omega))

theorem nodup_binLabels (f : Freq) (evs : List Event)
    (hval : ∀ x ∈ evs, x.date.Valid) : (binLabels f evs).Nodup := by
  cases f with
  | D => exact nodup_denseRange 1 (by omega) _
  | WMON => exact nodup_denseRange 7 (by omega) _
  | M =>
    simp only [binLabels]
    cases hks : evs.map (fun e => monthIdx e.date) with
    | nil => simp [denseRange]
    | cons k0 ks' =>
      simp only [denseRange]
      have h12 : ∀ x ∈ k0 :: ks', 12 ≤ x := by
        intro x hx
        rw [← hks] at hx
        obtain ⟨e, he, rfl⟩ := List.mem_map.mp hx
        exact monthIdx_ge e.date (hval e he)
      have hlo : 12 ≤ ks'.foldl Nat.min k0 := h12 _ (foldl_min_mem ks' k0)
      have hpw : ((List.range' (ks'.foldl Nat.min k0)
          ((ks'.foldl Nat.max k0 - ks'.foldl Nat.min k0) / 1 + 1) 1).map monthEnd).Pairwise
          (· < ·) := by
        rw [List.pairwise_map]
        refine List.Pairwise.imp_of_mem ?_ (range'_pairwise_lt _ _ 1 (by omega))
        intro a b ha hb hab
        have ha12 : 12 ≤ a := by
          rw [List.mem_range'] at ha
          obtain ⟨i, -, rfl⟩ := ha
          omega
        exact monthEnd_mono a b ha12 hab
      exact hpw.imp (fun h => ne_of_lt h)

theorem sum_map_flatMap {α β : Type _} (l : List α) (f : α → List β) (m : β → Nat) :
    (((l.flatMap f).map m).sum) = (l.map (fun a => ((f a).map m).sum)).sum := by
  induction l with
  | nil => simp
  | cons x xs ih => simp [List.flatMap_cons, ih]

theorem aggregateOverall_sum (f : Freq) (evs : List Event)
    (hval : ∀ e ∈ evs, e.date.Valid) :
    sumCounts (aggregateOverall f evs) = evs.length := by
  unfold sumCounts aggregateOverall
  rw [List.map_map]
  have hrw : ((fun r : Nat × Nat => r.2) ∘ fun L =>
      (L, evs.countP (fun e => bucketKey f e.date == L))) =
      fun L => (evs.map (fun e => bucketKey f e.date)).countP (fun x => x == L) := by
    funext L
    rw [List.countP_map]
    rfl
  rw [hrw]
  rw [sum_count_eq_length (evs.map (fun e => bucketKey f e.date)) (binLabels f evs)
    (nodup_binLabels f evs hval) ?_]
  · exact List.length_map evs _
  · intro k hk
    obtain ⟨e, he, rfl⟩ := List.mem_map.mp hk
    exact mem_binLabels f evs e he hval

theorem aggregateGrouped_sum (f : Freq) (dim : Event → String) (evs : List Event) :
    sumCountsG (aggregateGrouped f dim evs) = evs.length := by
  unfold sumCountsG aggregateGrouped
  rw [sum_map_flatMap]
  have hinner : ∀ g ∈ sortedDedup strLtb (evs.map dim),
      ((((sortedDedup natLtb ((evs.filter (fun e => dim e == g)).map
          (fun e => bucketKey f e.date))).map
        (fun L => (g, L, (evs.filter (fun e => dim e == g)).countP
          (fun e => bucketKey f e.date == L)))).map (fun r => r.2.2)).sum) =
      (evs.filter (fun e => dim e == g)).length := by
    intro g _
    rw [List.map_map]
    have hrw : ((fun r : String × Nat × Nat => r.2.2) ∘ fun L =>
        (g, L, (evs.filter (fun e => dim e == g)).countP
          (fun e => bucketKey f e.date == L))) =
        fun L => ((evs.filter (fun e => dim e == g)).map
          (fun e => bucketKey f e.date)).countP (fun x => x == L) := by
      funext L
      rw [List.countP_map]
      rfl
    rw [hrw]
    rw [sum_count_eq_length _ _
      (nodup_sortedDedup natLtb natLtb_strictOrder _)
      (fun k hk => (mem_sortedDedup natLtb _ k).mpr hk)]
    exact List.length_map _ _
  rw [List.map_congr_left hinner]
  have hrw2 : ∀ g, (evs.filter (fun e => dim e == g)).length =
      (evs.map dim).countP (fun x => x == g) := by
    intro g
    rw [← List.countP_eq_length_filter, List.countP_map]
    rfl
  calc ((sortedDedup strLtb (evs.map dim)).map
          (fun g => (evs.filter (fun e => dim e == g)).length)).sum
      = ((sortedDedup strLtb (evs.map dim)).map
          (fun g => (evs.map dim).countP (fun x => x == g))).sum := by
        apply congrArg
        exact List.map_congr_left (fun g _ => hrw2 g)
    _ = (evs.map dim).length := by
        apply sum_count_eq_length _ _
          (nodup_sortedDedup strLtb strLtb_strictOrder _)
          (fun k hk => (mem_sortedDedup strLtb _ k).mpr hk)
    _ = evs.length := List.length_map evs dim

-- C1 and C3 ------------------------------------------------------------------

/-- C1 (counterexample): with events only on 2024-01-01 and 2024-01-03 and
daily granularity, the overall aggregation materialises the event-free
2024-01-02 bin with count 0 — the overall series is NOT sparse. -/
theorem C1_counterexample :
    (Date.dayNumber ⟨2024, 1, 2⟩, 0) ∈
      aggregateOverall .D
        [⟨⟨2024, 1, 1⟩, "a", "u", "c"⟩, ⟨⟨2024, 1, 3⟩, "a", "u", "c"⟩] := by
  decide

/-- C1 (amended): the GROUPED aggregation is sparse — every (group, period)
row it emits has count ≥ 1 — but the OVERALL aggregation is dense: every
event's bucket appears with a count ≥ 1, and the resample binner also
materialises every interior bin between the first and last label, which can
carry count 0 (`C1_counterexample`). -/
theorem C1_amended (f : Freq) (dim : Event → String) (evs : List Event)
    (hval : ∀ e ∈ evs, e.date.Valid) :
    (∀ r ∈ aggregateGrouped f dim evs, 1 ≤ r.2.2) ∧
    (∀ e ∈ evs, ∃ c, (bucketKey f e.date, c) ∈ aggregateOverall f evs ∧ 1 ≤ c) := by
  constructor
  · intro r hr
    unfold aggregateGrouped at hr
    rw [List.mem_flatMap] at hr
    obtain ⟨g, hg, hr⟩ := hr
    rw [List.mem_map] at hr
    obtain ⟨L, hL, rfl⟩ := hr
    rw [mem_sortedDedup] at hL
    obtain ⟨e, he, rfl⟩ := List.mem_map.mp hL
    exact List.countP_pos_iff.mpr ⟨e, he, by simp⟩
  · intro e he
    refine ⟨evs.countP (fun x => bucketKey f x.date == bucketKey f e.date), ?_, ?_⟩
    · exact List.mem_map_of_mem _ (mem_binLabels f evs e he hval)
    · exact List.countP_pos_iff.mpr ⟨e, he, by simp⟩

/-- Witness for `C1_amended` at a concrete one-event table. -/
theorem C1_witness :
    (∀ e ∈ [(⟨⟨2024, 1, 5⟩, "a", "u", "c"⟩ : Event)], e.date.Valid) ∧
    ((∀ r ∈ aggregateGrouped .D (fun e => e.host)
        [⟨⟨2024, 1, 5⟩, "a", "u", "c"⟩], 1 ≤ r.2.2) ∧
      (∀ e ∈ [(⟨⟨2024, 1, 5⟩, "a", "u", "c"⟩ : Event)], ∃ c,
        (bucketKey .D e.date, c) ∈ aggregateOverall .D
          [⟨⟨2024, 1, 5⟩, "a", "u", "c"⟩] ∧ 1 ≤ c)) :=
  ⟨by decide, C1_amended .D (fun e => e.host) _ (by decide)⟩

/-- C3: for every event table (of valid dates), every granularity, and the
grouped as well as the overall layout, the counts of the aggregated series
(before top-N selection) sum to the number of aggregated rows. -/
theorem C3_sum_preserved (f : Freq) (dim : Event → String) (evs : List Event)
    (hval : ∀ e ∈ evs, e.date.Valid) :
    sumCounts (aggregateOverall f evs) = evs.length ∧
    sumCountsG (aggregateGrouped f dim evs) = evs.length :=
  ⟨aggregateOverall_sum f evs hval, aggregateGrouped_sum f dim evs⟩

/-- Witness for `C3_sum_preserved` on a three-event, two-group table. -/
theorem C3_witness :
    (∀ e ∈ [(⟨⟨2024, 1, 1⟩, "a", "u", "c"⟩ : Event),
            ⟨⟨2024, 1, 3⟩, "a", "u", "c"⟩, ⟨⟨2024, 1, 1⟩, "b", "u", "c"⟩],
      e.date.Valid) ∧
    (sumCounts (aggregateOverall .WMON
        [⟨⟨2024, 1, 1⟩, "a", "u", "c"⟩, ⟨⟨2024, 1, 3⟩, "a", "u", "c"⟩,
         ⟨⟨2024, 1, 1⟩, "b", "u", "c"⟩]) = 3 ∧
      sumCountsG (aggregateGrouped .WMON (fun e => e.host)
        [⟨⟨2024, 1, 1⟩, "a", "u", "c"⟩, ⟨⟨2024, 1, 3⟩, "a", "u", "c"⟩,
         ⟨⟨2024, 1, 1⟩, "b", "u", "c"⟩]) = 3) :=
  ⟨by decide, C3_sum_preserved .WMON (fun e => e.host) _ (by decide)⟩

-- C2 -------------------------------------------------------------------------

/-- C2: the spec's growth vectors evaluated on the code's `show_metrics`.
On `[(P1,10),(P2,15)]` the metric is numeric with delta 5 and pct 5/10 = 0.5
(as the claim says), and on a single period the info branch fires (as the
claim says); but on `[(P1,0),(P2,5)]` the claim demands the distinct
"unavailable" state, while the code computes `pct_change = 5/0 = +inf`,
`pd.notna(inf)` is True, and the delta string takes the NUMERIC branch,
rendering "+5 件 / inf %" — contradicting the claim, the spec and the app's
own caption (source line 146: growth is "not displayable" when the previous
period is 0). -/
theorem C2_eval :
    show_metrics [(0, 0), (1, 5)] = .metric 0 1 5 (some (5, .inf)) ∧
    show_metrics [(0, 10), (1, 15)] =
      .metric 0 1 15 (some (5, .val ⟨5, 10, Nat.succ_pos 9⟩)) ∧
    Frac.toQ ⟨5, 10, Nat.succ_pos 9⟩ = 1 / 2 ∧
    show_metrics [(0, 7)] = .needTwoPeriods := by
  refine ⟨by decide, by decide, ?_, by decide⟩
  norm_num [Frac.toQ]

-- C5 -------------------------------------------------------------------------

/-- C5 (counterexample): a parseable timestamp in the repeated hour of the
1948 Asia/Tokyo DST fall-back (1948-09-12, ambiguous) survives the dropna,
is turned into NaT by `tz_localize(..., ambiguous='NaT')` AFTER the dropna,
and stays in the normalized table: the output contains a null timestamp. -/
theorem C5_counterexample :
    ∃ r ∈ load_data [(⟨some ⟨1948, 9, 12⟩, .ambiguous, none, none, none⟩ : RawRow)],
      r.ts = none := by
  refine ⟨⟨none, "nan", "nan", "nan"⟩, by decide, rfl⟩

/-- C5 (amended): rows with unparsable timestamps are dropped (the output
has exactly one row per parseable input row), nonexistent local times are
shifted forward and kept, and the zero-null-timestamps guarantee holds
PROVIDED no row carries an ambiguous local time; an ambiguous row instead
yields a NaT that is never dropped (`C5_counterexample`). -/
theorem C5_amended (rows : List RawRow)
    (hnoamb : ∀ r ∈ rows, r.kind ≠ .ambiguous) :
    (∀ r' ∈ load_data rows, r'.ts ≠ none) ∧
    (load_data rows).length = (rows.filter (fun r => r.ts.isSome)).length ∧
    (∀ r ∈ rows, ∀ d, r.ts = some d → r.kind = .nonexistent →
      (⟨some d, strAstype r.host, strAstype r.url, strAstype r.connector⟩ : NormRow)
        ∈ load_data rows) := by
  refine ⟨?_, by simp [load_data], ?_⟩
  · intro r' hr'
    unfold load_data at hr'
    rw [List.mem_map] at hr'
    obtain ⟨r, hrf, rfl⟩ := hr'
    rw [List.mem_filter] at hrf
    obtain ⟨hrm, hsome⟩ := hrf
    obtain ⟨d, hd⟩ := Option.isSome_iff_exists.mp hsome
    cases hk : r.kind with
    | normal => simp [normalizeRow, hd, hk, localizeTokyo]
    | ambiguous => exact absurd hk (hnoamb r hrm)
    | nonexistent => simp [normalizeRow, hd, hk, localizeTokyo]
  · intro r hr d hd hk
    unfold load_data
    rw [List.mem_map]
    exact ⟨r, List.mem_filter.mpr ⟨hr, by simp [hd]⟩,
      by simp [normalizeRow, hd, hk, localizeTokyo]⟩

/-- Witness for `C5_amended` on a table with one normal, one unparsable and
one nonexistent-time row (1948-05-02 sits right after the 1948 Asia/Tokyo
spring-forward). -/
theorem C5_witness :
    (∀ r ∈ [(⟨some ⟨2024, 1, 2⟩, .normal, none, none, none⟩ : RawRow),
            ⟨none, .normal, none, none, none⟩,
            ⟨some ⟨1948, 5, 2⟩, .nonexistent, none, none, none⟩],
      r.kind ≠ LocalKind.ambiguous) ∧
    ((∀ r' ∈ load_data [(⟨some ⟨2024, 1, 2⟩, .normal, none, none, none⟩ : RawRow),
            ⟨none, .normal, none, none, none⟩,
            ⟨some ⟨1948, 5, 2⟩, .nonexistent, none, none, none⟩], r'.ts ≠ none) ∧
      (load_data [(⟨some ⟨2024, 1, 2⟩, .normal, none, none, none⟩ : RawRow),
            ⟨none, .normal, none, none, none⟩,
            ⟨some ⟨1948, 5, 2⟩, .nonexistent, none, none, none⟩]).length =
        ([(⟨some ⟨2024, 1, 2⟩, .normal, none, none, none⟩ : RawRow),
            ⟨none, .normal, none, none, none⟩,
            ⟨some ⟨1948, 5, 2⟩, .nonexistent, none, none, none⟩].filter
          (fun r => r.ts.isSome)).length ∧
      (∀ r ∈ [(⟨some ⟨2024, 1, 2⟩, .normal, none, none, none⟩ : RawRow),
            ⟨none, .normal, none, none, none⟩,
            ⟨some ⟨1948, 5, 2⟩, .nonexistent, none, none, none⟩],
        ∀ d, r.ts = some d → r.kind = .nonexistent →
        (⟨some d, strAstype r.host, strAstype r.url, strAstype r.connector⟩ : NormRow)
          ∈ load_data [(⟨some ⟨2024, 1, 2⟩, .normal, none, none, none⟩ : RawRow),
            ⟨none, .normal, none, none, none⟩,
            ⟨some ⟨1948, 5, 2⟩, .nonexistent, none, none, none⟩])) :=
  ⟨by decide, C5_amended _ (by decide)⟩

-- C9 -------------------------------------------------------------------------

/-- C9 (counterexample): on an empty normalized table the date-range stage
raises before any filtering happens: `df['timestamp'].min()` is NaT and
`NaT.date()` raises ValueError (source line 55), outside the try/except that
guards only `load_data`. -/
theorem C9_counterexample :
    dateBounds [] = Except.error "NaTType does not support date" := rfl

/-- C9 (amended): computing the date-range bounds raises exactly when the
normalized table has no non-null timestamp (in particular on an empty
table); every other stage — date mask, keyword filter, aggregation, top-N
selection, overall growth and per-group growth — maps an empty input to an
empty (or "needs two periods") result without raising. -/
theorem C9_amended (f : Freq) (dim : Event → String) (n start stop : Nat) (kw : String) :
    (∀ rows : List NormRow,
      (dateBounds rows = Except.error "NaTType does not support date" ↔
        rows.filterMap (fun r => r.ts) = [])) ∧
    filterByDate start stop [] = [] ∧
    keywordFilter kw [] = [] ∧
    toEvents [] = [] ∧
    aggregateOverall f [] = [] ∧
    aggregateGrouped f dim [] = [] ∧
    latest_totals n [] = [] ∧
    topNFilter n [] = [] ∧
    show_metrics [] = .needTwoPeriods ∧
    by_groups [] = [] := by
  refine ⟨?_, rfl, ?_, rfl, by cases f <;> rfl, rfl, ?_, rfl, rfl, rfl⟩
  · intro rows
    cases h : rows.filterMap (fun r => r.ts) with
    | nil => simp [dateBounds, h]
    | cons d ds => simp [dateBounds, h]
  · by_cases h : kw = "" <;> simp [keywordFilter, h]
  · simp [latest_totals, sort_values_desc, groupTotals, sortedDedup, stableSortBy]

-- C10 ------------------------------------------------------------------------

/-- Every event's group value appears among the groups of the grouped
aggregation. -/
theorem mem_groups_of_event (f : Freq) (dim : Event → String) (evs : List Event)
    (e : Event) (he : e ∈ evs) :
    dim e ∈ (aggregateGrouped f dim evs).map (fun row => row.1) := by
  rw [List.mem_map]
  refine ⟨(dim e, bucketKey f e.date,
    (evs.filter (fun x => dim x == dim e)).countP
      (fun x => bucketKey f x.date == bucketKey f e.date)), ?_, rfl⟩
  unfold aggregateGrouped
  rw [List.mem_flatMap]
  refine ⟨dim e, ?_, ?_⟩
  · rw [mem_sortedDedup, List.mem_map]
    exact ⟨e, he, rfl⟩
  · rw [List.mem_map]
    refine ⟨bucketKey f e.date, ?_, rfl⟩
    rw [mem_sortedDedup, List.mem_map]
    exact ⟨e, List.mem_filter.mpr ⟨he, by simp⟩, rfl⟩

/-- C10: a missing (NaN) cell in any of the categorical fields — host, url
or connector — becomes the literal string "nan" under `astype(str)`, not the
empty string, and the row is kept (the dropna targets only null timestamps).
The "nan" value then behaves as an ordinary category: grouping by host or by
connector lists a "nan" group whenever an event carries it, and the keyword
filter tests a "nan" url by the same case-insensitive containment rule as
every other row — after `astype(str)` no real NaN remains, so the
`na=False` fallback of `str.contains` never fires. -/
theorem C10_nan_category :
    (∀ (rows : List RawRow) (r : RawRow) (d : Date), r ∈ rows → r.ts = some d →
      normalizeRow r ∈ load_data rows ∧
      (r.host = none → (normalizeRow r).host = "nan") ∧
      (r.url = none → (normalizeRow r).url = "nan") ∧
      (r.connector = none → (normalizeRow r).connector = "nan") ∧
      ("nan" : String) ≠ "") ∧
    (∀ (f : Freq) (evs : List Event) (e : Event), e ∈ evs → e.host = "nan" →
      "nan" ∈ (aggregateGrouped f (fun x => x.host) evs).map (fun row => row.1)) ∧
    (∀ (f : Freq) (evs : List Event) (e : Event), e ∈ evs → e.connector = "nan" →
      "nan" ∈ (aggregateGrouped f (fun x => x.connector) evs).map
        (fun row => row.1)) ∧
    (∀ (kw : String) (rows : List NormRow) (r : NormRow), r ∈ rows →
      (r ∈ keywordFilter kw rows ↔ (kw = "" ∨ containsCI r.url kw = true))) := by
  refine ⟨?_, ?_, ?_, ?_⟩
  · intro rows r d hr hts
    refine ⟨List.mem_map_of_mem _ (List.mem_filter.mpr ⟨hr, by simp [hts]⟩),
      ?_, ?_, ?_, by decide⟩
    · intro hh
      simp [normalizeRow, hh, strAstype]
    · intro hu
      simp [normalizeRow, hu, strAstype]
    · intro hc
      simp [normalizeRow, hc, strAstype]
  · intro f evs e he hh
    rw [← hh]
    exact mem_groups_of_event f (fun x => x.host) evs e he
  · intro f evs e he hc
    rw [← hc]
    exact mem_groups_of_event f (fun x => x.connector) evs e he
  · intro kw rows r hr
    unfold keywordFilter
    by_cases hkw : kw = ""
    · rw [if_pos hkw]
      simp [hkw, hr]
    · rw [if_neg hkw]
      simp [List.mem_filter, hr, hkw]

/-- Witness for `C10_nan_category` on a row with all three categorical cells
missing, a "nan"-hosted and "nan"-connectored event, and a "nan" url under
the keyword "nan". -/
theorem C10_witness :
    (normalizeRow ⟨some ⟨2024, 1, 2⟩, .normal, none, none, none⟩ ∈
        load_data [(⟨some ⟨2024, 1, 2⟩, .normal, none, none, none⟩ : RawRow)] ∧
      (normalizeRow (⟨some ⟨2024, 1, 2⟩, .normal, none, none, none⟩ : RawRow)).host =
        "nan" ∧
      (normalizeRow (⟨some ⟨2024, 1, 2⟩, .normal, none, none, none⟩ : RawRow)).url =
        "nan" ∧
      (normalizeRow (⟨some ⟨2024, 1, 2⟩, .normal, none, none,
        none⟩ : RawRow)).connector = "nan" ∧
      ("nan" : String) ≠ "") ∧
    "nan" ∈ (aggregateGrouped .D (fun x => x.host)
      [(⟨⟨2024, 1, 2⟩, "nan", "nan", "nan"⟩ : Event)]).map (fun row => row.1) ∧
    "nan" ∈ (aggregateGrouped .D (fun x => x.connector)
      [(⟨⟨2024, 1, 2⟩, "nan", "nan", "nan"⟩ : Event)]).map (fun row => row.1) ∧
    ((⟨some ⟨2024, 1, 2⟩, "nan", "nan", "nan"⟩ : NormRow) ∈
        keywordFilter "nan" [(⟨some ⟨2024, 1, 2⟩, "nan", "nan", "nan"⟩ : NormRow)] ↔
      ("nan" = "" ∨ containsCI "nan" "nan" = true)) :=
  have h1 := C10_nan_category.1
    [(⟨some ⟨2024, 1, 2⟩, .normal, none, none, none⟩ : RawRow)]
    ⟨some ⟨2024, 1, 2⟩, .normal, none, none, none⟩ ⟨2024, 1, 2⟩ (by decide) rfl
  ⟨⟨h1.1, h1.2.1 rfl, h1.2.2.1 rfl, h1.2.2.2.1 rfl, h1.2.2.2.2⟩,
   C10_nan_category.2.1 .D [(⟨⟨2024, 1, 2⟩, "nan", "nan", "nan"⟩ : Event)]
      ⟨⟨2024, 1, 2⟩, "nan", "nan", "nan"⟩ (by decide) rfl,
   C10_nan_category.2.2.1 .D [(⟨⟨2024, 1, 2⟩, "nan", "nan", "nan"⟩ : Event)]
      ⟨⟨2024, 1, 2⟩, "nan", "nan", "nan"⟩ (by decide) rfl,
   C10_nan_category.2.2.2 "nan" [(⟨some ⟨2024, 1, 2⟩, "nan", "nan", "nan"⟩ : NormRow)]
      ⟨some ⟨2024, 1, 2⟩, "nan", "nan", "nan"⟩ (by decide)⟩

-- Top-N lemmas ---------------------------------------------------------------

theorem contains_iff {α : Type _} [BEq α] [LawfulBEq α] (l : List α) (a : α) :
    l.contains a = true ↔ a ∈ l := by
  induction l with
  | nil => simp
  | cons x xs ih =>
    rw [List.contains_cons]
    simp only [Bool.or_eq_true, beq_iff_eq, ih, List.mem_cons]

theorem map_fst_pairs {α β : Type _} (f : α → β) (l : List α) :
    (l.map (fun g => (g, f g))).map (fun p => p.1) = l := by
  induction l with
  | nil => rfl
  | cons x xs ih => simp [ih]

theorem groupTotals_fst (rows : List (String × Nat × Nat)) :
    (groupTotals rows).map (fun p => p.1) =
      sortedDedup strLtb (rows.map (fun r => r.1)) := by
  unfold groupTotals
  exact map_fst_pairs _ _

theorem sort_values_desc_perm (l : List (String × Nat)) :
    (sort_values_desc l).Perm l :=
  (List.reverse_perm _).trans (stableSortBy_perm _ l)

theorem latest_totals_nodup (n : Nat) (rows : List (String × Nat × Nat)) :
    (latest_totals n rows).Nodup := by
  unfold latest_totals
  rw [List.map_take]
  apply List.Sublist.nodup (List.take_sublist _ _)
  have hperm : ((sort_values_desc (groupTotals rows)).map (fun p => p.1)).Perm
      ((groupTotals rows).map (fun p => p.1)) :=
    (sort_values_desc_perm _).map _
  apply hperm.symm.nodup
  rw [groupTotals_fst]
  exact nodup_sortedDedup strLtb strLtb_strictOrder _

theorem latest_totals_sub (n : Nat) (rows : List (String × Nat × Nat)) (g : String)
    (hg : g ∈ latest_totals n rows) : g ∈ rows.map (fun r => r.1) := by
  unfold latest_totals at hg
  rw [List.map_take] at hg
  have hg2 := List.take_subset _ _ hg
  have hperm : ((sort_values_desc (groupTotals rows)).map (fun p => p.1)).Perm
      ((groupTotals rows).map (fun p => p.1)) :=
    (sort_values_desc_perm _).map _
  have hmem := hperm.mem_iff.mp hg2
  rw [groupTotals_fst, mem_sortedDedup] at hmem
  exact hmem

theorem latest_totals_length (n : Nat) (rows : List (String × Nat × Nat)) :
    (latest_totals n rows).length = min n (numGroups rows) := by
  unfold latest_totals numGroups
  rw [List.length_map, List.length_take]
  congr 1
  rw [(sort_values_desc_perm (groupTotals rows)).length_eq]
  unfold groupTotals
  rw [List.length_map]

/-- C6: the Top-N selector retains exactly `min n (number of groups)` groups
and leaves every retained group's rows — periods and counts — untouched. -/
theorem C6_topn (n : Nat) (rows : List (String × Nat × Nat)) :
    numGroups (topNFilter n rows) = min n (numGroups rows) ∧
    ∀ g ∈ latest_totals n rows,
      (topNFilter n rows).filter (fun r => r.1 == g) =
        rows.filter (fun r => r.1 == g) := by
  constructor
  · have hmemiff : ∀ a, a ∈ sortedDedup strLtb ((topNFilter n rows).map (fun r => r.1)) ↔
        a ∈ latest_totals n rows := by
      intro a
      rw [mem_sortedDedup, List.mem_map]
      constructor
      · rintro ⟨r, hr, rfl⟩
        unfold topNFilter at hr
        rw [List.mem_filter] at hr
        exact (contains_iff _ _).mp hr.2
      · intro ha
        have hmap : a ∈ rows.map (fun r => r.1) := latest_totals_sub n rows a ha
        rw [List.mem_map] at hmap
        obtain ⟨r, hr, rfl⟩ := hmap
        refine ⟨r, ?_, rfl⟩
        unfold topNFilter
        rw [List.mem_filter]
        exact ⟨hr, (contains_iff _ _).mpr ha⟩
    have hperm : (sortedDedup strLtb ((topNFilter n rows).map (fun r => r.1))).Perm
        (latest_totals n rows) :=
      (List.perm_ext_iff_of_nodup (nodup_sortedDedup strLtb strLtb_strictOrder _)
        (latest_totals_nodup n rows)).mpr hmemiff
    unfold numGroups
    rw [hperm.length_eq, latest_totals_length]
    rfl
  · intro g hg
    unfold topNFilter
    rw [List.filter_filter]
    apply List.filter_congr
    intro r _
    by_cases he : r.1 = g
    · simp [he]
      exact hg
    · simp [he]

/-- Witness for `C6_topn` on a two-group series with n = 1. -/
theorem C6_witness :
    numGroups (topNFilter 1 [("a", 10, 2), ("b", 20, 3)]) =
      min 1 (numGroups [("a", 10, 2), ("b", 20, 3)]) ∧
    ("b" ∈ latest_totals 1 [("a", 10, 2), ("b", 20, 3)] ∧
      (topNFilter 1 [("a", 10, 2), ("b", 20, 3)]).filter (fun r => r.1 == "b") =
        [("a", 10, 2), ("b", 20, 3)].filter (fun r => r.1 == "b")) :=
  ⟨(C6_topn 1 [("a", 10, 2), ("b", 20, 3)]).1, by decide,
   (C6_topn 1 [("a", 10, 2), ("b", 20, 3)]).2 "b" (by decide)⟩

-- C7 -------------------------------------------------------------------------

/-- C7 (counterexample): two groups tie with one event each; "a" appears
first in the input, so the claimed first-appearance tie-break would retain
"a", but the code retains "b": groupby indexes groups in ascending name
order and `sort_values(ascending=False)` reverses the stable ascending
argsort, so the tie goes to the LARGER name. -/
theorem C7_counterexample :
    latest_totals 1 (aggregateGrouped .D (fun e => e.host)
      [⟨⟨2024, 1, 1⟩, "a", "u", "c"⟩, ⟨⟨2024, 1, 1⟩, "b", "u", "c"⟩]) = ["b"] ∧
    specTopGroups 1 (fun e => e.host)
      [⟨⟨2024, 1, 1⟩, "a", "u", "c"⟩, ⟨⟨2024, 1, 1⟩, "b", "u", "c"⟩]
      (aggregateGrouped .D (fun e => e.host)
        [⟨⟨2024, 1, 1⟩, "a", "u", "c"⟩, ⟨⟨2024, 1, 1⟩, "b", "u", "c"⟩]) = ["a"] :=
  ⟨by decide, by decide⟩

theorem pairwise_insert_totals (x : String × Nat) (l : List (String × Nat))
    (hl : l.Pairwise (fun a b => a.2 < b.2 ∨ (a.2 = b.2 ∧ strLtb a.1 b.1 = true)))
    (hx : ∀ y ∈ l, strLtb y.1 x.1 = true) :
    (insertS (fun a b => decide (a.2 ≤ b.2)) x l).Pairwise
      (fun a b => a.2 < b.2 ∨ (a.2 = b.2 ∧ strLtb a.1 b.1 = true)) := by
  induction l with
  | nil => simp [insertS]
  | cons y ys ih =>
    rw [List.pairwise_cons] at hl
    obtain ⟨hy, hys⟩ := hl
    have hxy : strLtb y.1 x.1 = true := hx y (by simp)
    simp only [insertS]
    by_cases hc : y.2 ≤ x.2
    · rw [if_pos (by simpa using hc)]
      refine List.Pairwise.cons ?_ (ih hys (fun z hz => hx z (by simp [hz])))
      intro b hb
      rcases (mem_insertS _ x b ys).mp hb with rfl | hb
      · rcases lt_or_eq_of_le hc with h | h
        · exact Or.inl h
        · exact Or.inr ⟨h, hxy⟩
      · exact hy b hb
    · rw [if_neg (by simpa using hc)]
      have hxy2 : x.2 < y.2 := by omega
      refine List.Pairwise.cons ?_ (List.Pairwise.cons hy hys)
      intro b hb
      rcases List.mem_cons.mp hb with rfl | hb
      · exact Or.inl hxy2
      · rcases hy b hb with h | h
        · exact Or.inl (hxy2.trans h)
        · exact Or.inl (h.1 ▸ hxy2)

theorem pairwise_totals_sort (ts : List (String × Nat))
    (hts : ts.Pairwise (fun a b => strLtb a.1 b.1 = true)) :
    (stableSortBy (fun a b => decide (a.2 ≤ b.2)) ts).Pairwise
      (fun a b => a.2 < b.2 ∨ (a.2 = b.2 ∧ strLtb a.1 b.1 = true)) := by
  unfold stableSortBy
  suffices h : ∀ (ys acc : List (String × Nat)),
      acc.Pairwise (fun a b => a.2 < b.2 ∨ (a.2 = b.2 ∧ strLtb a.1 b.1 = true)) →
      (∀ y ∈ acc, ∀ x ∈ ys, strLtb y.1 x.1 = true) →
      ys.Pairwise (fun a b => strLtb a.1 b.1 = true) →
      (ys.foldl (fun acc x => insertS (fun a b => decide (a.2 ≤ b.2)) x acc) acc).Pairwise
        (fun a b => a.2 < b.2 ∨ (a.2 = b.2 ∧ strLtb a.1 b.1 = true)) by
    exact h ts [] (by simp) (by simp) hts
  intro ys
  induction ys with
  | nil => exact fun acc h _ _ => h
  | cons x ys ih =>
    intro acc hacc hsep hys
    rw [List.pairwise_cons] at hys
    obtain ⟨hxys, hys'⟩ := hys
    simp only [List.foldl_cons]
    refine ih _ (pairwise_insert_totals x acc hacc (fun y hy => hsep y hy x (by simp)))
      ?_ hys'
    intro y hy x' hx'
    rcases (mem_insertS _ x y acc).mp hy with rfl | hy
    · exact hxys x' hx'
    · exact hsep y hy x' (by simp [hx'])

/-- C7 (amended): ties at the Top-N boundary are NOT broken by original
first-appearance order.  Whenever fewer than 16 distinct groups exist — the
regime in which numpy's argsort runs a single stable insertion-sort pass, so
the model `sort_values_desc` coincides with pandas exactly — the descending
order is totally characterised: later entries have strictly smaller totals,
or equal totals and a lexicographically SMALLER name, i.e. ties break by
DESCENDING group name (the reverse of the name-sorted groupby index).  With
16 or more groups numpy's quicksort tie order is unspecified (deterministic
for identical input, but no particular order is guaranteed), which is why
this characterisation carries the bound. -/
theorem C7_amended (rows : List (String × Nat × Nat))
    (_hsmall : numGroups rows < 16) :
    (sort_values_desc (groupTotals rows)).Pairwise
      (fun a b => b.2 < a.2 ∨ (b.2 = a.2 ∧ strLtb b.1 a.1 = true)) := by
  unfold sort_values_desc
  rw [List.pairwise_reverse]
  apply pairwise_totals_sort
  unfold groupTotals
  rw [List.pairwise_map]
  exact pairwise_sortedDedup strLtb strLtb_strictOrder _

/-- Witness for `C7_amended` on a two-group tie. -/
theorem C7_witness :
    numGroups [("a", 1, 1), ("b", 1, 1)] < 16 ∧
    (sort_values_desc (groupTotals [("a", 1, 1), ("b", 1, 1)])).Pairwise
      (fun a b => b.2 < a.2 ∨ (b.2 = a.2 ∧ strLtb b.1 a.1 = true)) :=
  ⟨by decide, C7_amended [("a", 1, 1), ("b", 1, 1)] (by decide)⟩

-- C8 -------------------------------------------------------------------------

theorem fracLE_total (a b : Frac) : fracLE a b = true ∨ fracLE b a = true := by
  unfold fracLE
  rcases le_total (a.num * b.den) (b.num * a.den) with h | h
  · left
    simpa using h
  · right
    simpa using h

theorem fracLE_trans (a b c : Frac) (h1 : fracLE a b = true) (h2 : fracLE b c = true) :
    fracLE a c = true := by
  unfold fracLE at h1 h2 ⊢
  rw [decide_eq_true_eq] at h1 h2 ⊢
  have ha : (0 : Int) < a.den := by exact_mod_cast a.den_pos
  have hb : (0 : Int) < b.den := by exact_mod_cast b.den_pos
  have hc : (0 : Int) < c.den := by exact_mod_cast c.den_pos
  nlinarith [mul_le_mul_of_nonneg_right h1 (le_of_lt hc),
    mul_le_mul_of_nonneg_right h2 (le_of_lt ha), hb]

theorem optLE_total (a b : Option Frac) : optLE a b = true ∨ optLE b a = true := by
  cases a with
  | none => left; rfl
  | some x =>
    cases b with
    | none => right; rfl
    | some y => exact fracLE_total x y

theorem optLE_trans (a b c : Option Frac) (h1 : optLE a b = true)
    (h2 : optLE b c = true) : optLE a c = true := by
  cases a with
  | none => rfl
  | some x =>
    cases c with
    | none =>
      cases b with
      | none => exact absurd h1 (by simp [optLE])
      | some y => exact absurd h2 (by simp [optLE])
    | some z =>
      cases b with
      | none => exact absurd h1 (by simp [optLE])
      | some y => exact fracLE_trans x y z h1 h2

theorem groupPct_length (g : List (String × Nat × Nat)) (p : Option Frac)
    (h : groupPct g = some p) : 2 ≤ g.length := by
  unfold groupPct at h
  rcases hrev : (stableSortBy (fun a b => decide (a.2.1 ≤ b.2.1)) g).reverse with
    _ | ⟨lastR, rest⟩
  · rw [hrev] at h
    simp at h
  · rcases rest with _ | ⟨prevR, rest'⟩
    · rw [hrev] at h
      simp at h
    · have hlen : ((stableSortBy (fun a b => decide (a.2.1 ≤ b.2.1)) g).reverse).length =
          g.length := by
        rw [List.length_reverse, length_stableSortBy]
      rw [hrev] at hlen
      simp only [List.length_cons] at hlen
      omega

theorem by_groups_mem (rows : List (String × Nat × Nat)) (x : String × Option Frac)
    (hx : x ∈ by_groups rows) :
    2 ≤ (rows.filter (fun r => r.1 == x.1)).length := by
  simp only [by_groups] at hx
  have hx2 := List.take_subset _ _ hx
  rw [mem_stableSortBy] at hx2
  rw [List.mem_filterMap] at hx2
  obtain ⟨nm, hnm, hfa⟩ := hx2
  rw [Option.map_eq_some'] at hfa
  obtain ⟨p, hp, hpx⟩ := hfa
  subst hpx
  exact groupPct_length _ p hp

theorem by_groups_excludes (rows : List (String × Nat × Nat)) (g : String)
    (hshort : (rows.filter (fun r => r.1 == g)).length < 2) :
    ∀ x ∈ by_groups rows, x.1 ≠ g := by
  intro x hx heq
  have h2 := by_groups_mem rows x hx
  rw [heq] at h2
  omega

/-- C8 (counterexample): group "a" has two periods, group "b" only one, and
only two groups exist (capacity 12 allows both); the code's per-group growth
list silently OMITS "b" instead of including it ranked last, because the
`len(g) >= 2` guard skips the append entirely. -/
theorem C8_counterexample :
    "b" ∈ (aggregateGrouped .D (fun e => e.host)
        [⟨⟨2024, 1, 1⟩, "a", "u", "c"⟩, ⟨⟨2024, 1, 2⟩, "a", "u", "c"⟩,
         ⟨⟨2024, 1, 1⟩, "b", "u", "c"⟩]).map (fun r => r.1) ∧
    (by_groups (aggregateGrouped .D (fun e => e.host)
        [⟨⟨2024, 1, 1⟩, "a", "u", "c"⟩, ⟨⟨2024, 1, 2⟩, "a", "u", "c"⟩,
         ⟨⟨2024, 1, 1⟩, "b", "u", "c"⟩])).length < 12 ∧
    "b" ∉ (by_groups (aggregateGrouped .D (fun e => e.host)
        [⟨⟨2024, 1, 1⟩, "a", "u", "c"⟩, ⟨⟨2024, 1, 2⟩, "a", "u", "c"⟩,
         ⟨⟨2024, 1, 1⟩, "b", "u", "c"⟩])).map (fun r => r.1) :=
  ⟨by decide, by decide, by decide⟩

/-- C8 (amended): the rendered per-group growth list is capped at 12, is
sorted by pct descending with the NaN ("unavailable") pct keyed as -inf and
therefore ranked last, contains only groups with at least two periods, and
EXCLUDES every group with fewer than two periods even when capacity
remains. -/
theorem C8_amended (rows : List (String × Nat × Nat)) :
    (by_groups rows).length ≤ 12 ∧
    (by_groups rows).Pairwise (fun a b => optLE b.2 a.2 = true) ∧
    (∀ x ∈ by_groups rows, 2 ≤ (rows.filter (fun r => r.1 == x.1)).length) ∧
    (∀ g : String, (rows.filter (fun r => r.1 == g)).length < 2 →
      ∀ x ∈ by_groups rows, x.1 ≠ g) := by
  refine ⟨?_, ?_, fun x hx => by_groups_mem rows x hx,
    fun g h => by_groups_excludes rows g h⟩
  · simp only [by_groups]
    exact List.length_take_le 12 _
  · simp only [by_groups]
    refine List.Pairwise.sublist (List.take_sublist _ _) ?_
    exact pairwise_stableSortBy
      (fun a b : String × Option Frac => optLE b.2 a.2)
      (fun a b c h1 h2 => optLE_trans c.2 b.2 a.2 h2 h1)
      (fun a b => optLE_total b.2 a.2) _

/-- Witness for `C8_amended` on a concrete two-group series. -/
theorem C8_witness :
    2 ≤ ([("a", 0, 1), ("a", 1, 2), ("b", 5, 3)].filter
      (fun r : String × Nat × Nat => r.1 == "a")).length ∧
    (∀ x ∈ by_groups [("a", 0, 1), ("a", 1, 2), ("b", 5, 3)], x.1 ≠ "b") :=
  ⟨(C8_amended [("a", 0, 1), ("a", 1, 2), ("b", 5, 3)]).2.2.1
      ("a", some ⟨1, 1, Nat.one_pos⟩) (by decide),
   (C8_amended [("a", 0, 1), ("a", 1, 2), ("b", 5, 3)]).2.2.2 "b" (by decide)⟩
